import Mathlib

set_option maxRecDepth 100000

/-!
Shallow embedding of the `aflaag/blockchain` repository.

Conventions of the embedding:
* Rust `f64` values are modelled twice.  The exact numeric type `F64`
  below covers the order-theoretic claims: the program only adds, subtracts
  and compares amounts, and on finite values the sign and comparison
  behaviour those claims rest on is exact.  The extended type `FE` adds the
  IEEE special values (NaN and the infinities) with IEEE comparison and
  arithmetic semantics; it is used for the panic analysis, where the
  special values matter.
* SHA-512 comes from the external `sha2` crate; it is modelled as an
  arbitrary function `HashFun` from input strings to byte lists, supplied as
  a parameter everywhere.  Fixed-width `[u8; 64]` buffers are `List Nat`.
* Fallible Rust code is embedded with `Except`/`Option`: an `unwrap` panic
  is `none` (or a dedicated constructor), a `Result` is `Except`.
* The repository's files are inconsistent revisions: `blockchain.rs` uses a
  `Transaction` revision (account snapshots, `f64` amount, four
  `ValidationError` kinds) that is not present under `src/`.  That missing
  revision is modelled from the spec; the corresponding definitions carry a
  doc comment starting with `Modelled from the spec:`.  Everything else is
  translated directly from the source files.
-/

/-- Exact model of Rust `f64` amounts and balances (see the header note). -/
abbrev F64 := Int

/-- SHA-512 from the external `sha2` crate, abstracted: a function from the
digest input string to the output byte list. -/
abbrev HashFun := String → List Nat

deriving instance DecidableEq for Except

/-- Enum `InvalidNumber` of `positive_f64.rs`. -/
inductive InvalidNumber where
  | NegativeValue
  deriving DecidableEq

/-- Struct `PositiveF64` of `positive_f64.rs`: a wrapper around an `f64`
(modelled as `F64`). -/
structure PositiveF64 where
  val : F64
  deriving DecidableEq

/-- `PositiveF64::new` (positive_f64.rs): `Ok` exactly when the number is
`>= 0.0`, otherwise `Err(InvalidNumber::NegativeValue)`. -/
def PositiveF64.new (number : F64) : Except InvalidNumber PositiveF64 :=
  if 0 ≤ number then .ok ⟨number⟩ else .error .NegativeValue

/-- `PositiveF64::value` (positive_f64.rs). -/
def PositiveF64.value (p : PositiveF64) : F64 := p.val

/-- `PositiveF64::new_unchecked` (positive_f64.rs): wraps without any check. -/
def PositiveF64.new_unchecked (number : F64) : PositiveF64 := ⟨number⟩

/-- `impl ops::AddAssign for PositiveF64` (positive_f64.rs):
`self.0 += other.0`, no check. -/
def PositiveF64.addAssign (p q : PositiveF64) : PositiveF64 := ⟨p.val + q.val⟩

/-- `impl ops::SubAssign for PositiveF64` (positive_f64.rs): first
`PositiveF64::new(self.0 - other.0).unwrap()` — a panic (modelled `none`)
when the difference is negative — then `self.0 -= other.0`. -/
def PositiveF64.subAssign (p q : PositiveF64) : Option PositiveF64 :=
  match PositiveF64.new (p.val - q.val) with
  | .ok _ => some ⟨p.val - q.val⟩
  | .error _ => none

/-- Struct `Account` of `account.rs`.  The key material is drawn from the
external `OsRng` in the source, so the embedding takes it as an input. -/
structure Account where
  first_name : String
  last_name : String
  balance : PositiveF64
  keypair : List Nat
  hash_password : List Nat
  deriving DecidableEq

/-- `Account::new` (account.rs): zero balance, caller-side key material,
SHA-512 digest of the password. -/
def Account.new (H : HashFun) (kp : List Nat)
    (first_name last_name password : String) : Account :=
  ⟨first_name, last_name, ⟨0⟩, kp, H password⟩

/-- `Account::add_money` (account.rs): rejected (balance unchanged, message
printed) when the amount is `0.0` or negative, else `balance += amount`. -/
def Account.add_money (a : Account) (amount : F64) : Account :=
  if amount = 0 then a
  else
    match PositiveF64.new amount with
    | .ok q => { a with balance := a.balance.addAssign q }
    | .error _ => a

/-- `Account::sub_money` (account.rs): rejected (balance unchanged) when the
amount is `0.0`, negative, or more than the balance; else `balance -= amount`
through `SubAssign`, whose internal unwrap is modelled by the `Option`. -/
def Account.sub_money (a : Account) (amount : F64) : Option Account :=
  if amount = 0 then some a
  else
    match PositiveF64.new amount with
    | .ok q =>
        match PositiveF64.new (a.balance.value - q.value) with
        | .ok _ =>
            match a.balance.subAssign q with
            | some b => some { a with balance := b }
            | none => none
        | .error _ => some a
    | .error _ => some a

/-- `Account::add_money_unchecked` (account.rs): `balance +=
PositiveF64::new_unchecked(amount)`, no checks. -/
def Account.add_money_unchecked (a : Account) (amount : F64) : Account :=
  { a with balance := a.balance.addAssign (PositiveF64.new_unchecked amount) }

/-- `Account::sub_money_unchecked` (account.rs): `balance -=
PositiveF64::new_unchecked(amount)`; `SubAssign`'s unwrap panics (`none`)
when the difference is negative. -/
def Account.sub_money_unchecked (a : Account) (amount : F64) : Option Account :=
  match a.balance.subAssign (PositiveF64.new_unchecked amount) with
  | some b => some { a with balance := b }
  | none => none

/-- `impl fmt::Display for Account` (account.rs):
`({first_name} {last_name}: {balance})`. -/
def Account.display (a : Account) : String :=
  "(" ++ a.first_name ++ " " ++ a.last_name ++ ": " ++ toString a.balance.val ++ ")"

/-- Enum `ValidationError` of `transaction.rs` as present under `src/`
(the older, string-based revision). -/
inductive ValidationError where
  | Tempered
  | InvalidSign
  deriving DecidableEq

/-- Struct `Transaction` of `transaction.rs` as present under `src/`:
string parties, `u64` amount, SHA-512 content digest. -/
structure Transaction where
  sender : String
  receiver : String
  amount : Nat
  hash : List Nat
  deriving DecidableEq

/-- Digest input of `Transaction::calculate_hash` (transaction.rs):
`format!("{}{}{}", sender, receiver, amount)`. -/
def Transaction.digestInput (sender receiver : String) (amount : Nat) : String :=
  sender ++ receiver ++ toString amount

/-- `Transaction::new` (transaction.rs): stores the SHA-512 digest of the
fields computed by `calculate_hash`. -/
def Transaction.new (H : HashFun) (sender receiver : String) (amount : Nat) :
    Transaction :=
  ⟨sender, receiver, amount, H (Transaction.digestInput sender receiver amount)⟩

/-- `Transaction::validate` (transaction.rs): `Tempered` exactly when the
presented hash differs from the stored one. -/
def Transaction.validate (t : Transaction) (hash : List Nat) :
    Except ValidationError Unit :=
  if hash ≠ t.hash then .error .Tempered else .ok ()

/-- Modelled from the spec: the `ValidationError` revision used by
`blockchain.rs` (its `transaction.rs` revision is missing from `src/`), with
the four declared kinds of the section 7 taxonomy. -/
inductive ValidationErrorV2 where
  | Tempered
  | WrongPassword
  | InvalidSignature
  | InvalidAmount
  deriving DecidableEq

/-- Modelled from the spec: the `Transaction` revision used by
`blockchain.rs`, missing from `src/`: account snapshots, `f64` amount, and a
content digest over (sender, receiver, amount).  Per the spec's data model
(section 3) no password or signature is stored on the transaction. -/
structure TransactionV2 where
  sender : Account
  receiver : Account
  amount : F64
  hash : List Nat
  deriving DecidableEq

/-- Modelled from the spec: the content-digest input of the missing
`Transaction` revision — the two account snapshots (rendered with
`Account`'s `Display` impl, the rendering `blockchain.rs` uses for them)
followed by the amount. -/
def TransactionV2.digestInput (sender receiver : Account) (amount : F64) : String :=
  sender.display ++ receiver.display ++ toString amount

/-- Modelled from the spec: `Transaction::new` of the missing revision.  The
sender password argument is received but, per the spec's data model, not
stored; the digest is computed once at creation. -/
def TransactionV2.new (H : HashFun) (sender receiver : Account) (amount : F64)
    (_sender_password : String) : TransactionV2 :=
  ⟨sender, receiver, amount, H (TransactionV2.digestInput sender receiver amount)⟩

/-- Accessor `transaction.hash()` used by `blockchain.rs`. -/
def TransactionV2.hashValue (t : TransactionV2) : List Nat := t.hash

/-- Accessor `transaction.amount()` used by `blockchain.rs`. -/
def TransactionV2.amountValue (t : TransactionV2) : F64 := t.amount

/-- Modelled from the spec: `Transaction::validate` of the missing revision.
Checks, in the priority order of spec section 4.3: (a) `Tempered` when the
presented digest differs from the stored digest, and (d) `InvalidAmount`
when the amount is zero, negative, or exceeds the sender's current balance
(the in-source comment in `blockchain.rs` states "the amount is checked in
the validation of the transaction").  Per spec sections 4.3 and 9 the
`WrongPassword` and `InvalidSignature` kinds are declared in the taxonomy
but not enforced end-to-end, so `validate` never produces them. -/
def TransactionV2.validate (t : TransactionV2) (hash : List Nat) :
    Except ValidationErrorV2 Unit :=
  if hash ≠ t.hash then .error .Tempered
  else if t.amount ≤ 0 ∨ t.sender.balance.value < t.amount then
    .error .InvalidAmount
  else .ok ()

/-- Rust `{:?}` rendering of a byte array, as used on `[u8; 64]` values in
`Block::calculate_hash`: `[b0, b1, ...]`. -/
def rustDebugBytes (bs : List Nat) : String :=
  "[" ++ String.intercalate ", " (bs.map toString) ++ "]"

/-- Escape of one character under Rust's `{:?}` string rendering; quotes and
backslashes are the only escapable characters arising in the digest fold. -/
def rustEscapeChar (c : Char) : String :=
  if c = '"' then "\\\"" else if c = '\\' then "\\\\" else String.singleton c

/-- Rust `{:?}` rendering of a string: surrounding quotes plus escapes. -/
def rustDebugString (s : String) : String :=
  "\"" ++ String.join (s.toList.map rustEscapeChar) ++ "\""

/-- Struct `Block` of `block.rs`.  The `u128` nonce is modelled as `Nat`. -/
structure Block where
  index : Nat
  prev_hash : List Nat
  transactions : List TransactionV2
  nonce : Nat
  hash : List Nat
  deriving DecidableEq

/-- Accumulator of `Block::calculate_hash` (block.rs): fold of
`format!("{:?}{:?}", acc, t.hash)` over the transactions. -/
def transactionsHashes (txs : List TransactionV2) : String :=
  txs.foldl (fun acc t => rustDebugString acc ++ rustDebugBytes t.hash) ""

/-- Digest input of one proof-of-work attempt in `Block::calculate_hash`
(block.rs): `format!("{}{:?}{}{}", index, prev_hash, transactions_hashes,
nonce)`. -/
def blockDigestInput (index : Nat) (prev_hash : List Nat) (txsStr : String)
    (nonce : Nat) : String :=
  toString index ++ rustDebugBytes prev_hash ++ txsStr ++ toString nonce

/-- Proof-of-work target of `Block::calculate_hash`: the first two bytes of
the hash must equal `[69, 69]`. -/
def powTarget : List Nat := [69, 69]

/-- Mining loop of `Block::calculate_hash` (block.rs): while the first two
hash bytes miss the target, hash the digest input at the current nonce and
then increment the nonce.  `fuel` bounds the number of attempts; `none`
models a search still running when the fuel is exhausted. -/
def mineAux (H : HashFun) (index : Nat) (prev_hash : List Nat) (txsStr : String) :
    Nat → List Nat → Nat → Option (Nat × List Nat)
  | nonce, hash, 0 => if hash.take 2 = powTarget then some (nonce, hash) else none
  | nonce, hash, fuel + 1 =>
      if hash.take 2 = powTarget then some (nonce, hash)
      else
        mineAux H index prev_hash txsStr (nonce + 1)
          (H (blockDigestInput index prev_hash txsStr nonce)) fuel

/-- `Block::new` (block.rs): stores the inputs, then runs the mining loop
starting from nonce `0` and the all-zero hash. -/
def Block.new (H : HashFun) (fuel : Nat) (index : Nat) (prev_hash : List Nat)
    (transactions : List TransactionV2) : Option Block :=
  (mineAux H index prev_hash (transactionsHashes transactions) 0
      (List.replicate 64 0) fuel).map
    fun nh => ⟨index, prev_hash, transactions, nh.1, nh.2⟩

/-- `impl Default for Block` (block.rs): `Block::new(0, [0; 64], vec![])`. -/
def Block.defaultBlock (H : HashFun) (fuel : Nat) : Option Block :=
  Block.new H fuel 0 (List.replicate 64 0) []

/-- Struct `BlockChain` of `blockchain.rs`. -/
structure BlockChain where
  index : Nat
  chain : List Block
  transactions : List TransactionV2
  transactions_per_block : Nat
  deriving DecidableEq

/-- `BlockChain::new` (blockchain.rs): the chain starts with the genesis
block from `Block`'s `Default` impl, empty pending buffer, index 0. -/
def BlockChain.new (H : HashFun) (fuel : Nat) (transactions_per_block : Nat) :
    Option BlockChain :=
  (Block.defaultBlock H fuel).map fun g => ⟨0, [g], [], transactions_per_block⟩

/-- Abnormal outcomes of `BlockChain::push_transaction`: a panic, or a
proof-of-work search still running when the fuel runs out. -/
inductive PushOutcome where
  | panicked
  | mining
  deriving DecidableEq

/-- Normal result of `push_transaction`: the updated ledger, sender and
receiver, and the `ValidationError` reported on stderr (`none` when the
validation succeeded). -/
abbrev PushResultV :=
  BlockChain × Account × Account × Option ValidationErrorV2

/-- Tail of `BlockChain::push_transaction` (blockchain.rs): when the pending
buffer length equals `transactions_per_block`, increment the index, mine a
new block over the buffer and `chain.last().unwrap().hash()` (a panic on an
empty chain), append it and clear the buffer. -/
def BlockChain.mintIfFull (H : HashFun) (fuel : Nat) (bc : BlockChain)
    (sender receiver : Account) (err : Option ValidationErrorV2) :
    Except PushOutcome PushResultV :=
  if bc.transactions.length = bc.transactions_per_block then
    match bc.chain.getLast? with
    | none => .error .panicked
    | some lastBlock =>
        match Block.new H fuel (bc.index + 1) lastBlock.hash bc.transactions with
        | none => .error .mining
        | some nb =>
            .ok (⟨bc.index + 1, bc.chain ++ [nb], [], bc.transactions_per_block⟩,
              sender, receiver, err)
  else .ok (bc, sender, receiver, err)

/-- `BlockChain::push_transaction` (blockchain.rs): build the transaction
from clones of the two accounts, validate it against its own stored hash;
on success append it to the pending buffer and apply the transfer through
the unchecked account mutators; on failure report the error and leave the
accounts and the buffer untouched; finally mint a block if the buffer is
full. -/
def BlockChain.push_transaction (H : HashFun) (fuel : Nat) (bc : BlockChain)
    (sender receiver : Account) (amount : F64) (sender_password : String) :
    Except PushOutcome PushResultV :=
  match (TransactionV2.new H sender receiver amount sender_password).validate
      (TransactionV2.new H sender receiver amount sender_password).hashValue with
  | .ok _ =>
      match sender.sub_money_unchecked amount with
      | none => .error .panicked
      | some sender1 =>
          BlockChain.mintIfFull H fuel
            { bc with transactions :=
                bc.transactions ++ [TransactionV2.new H sender receiver amount sender_password] }
            sender1 (receiver.add_money_unchecked amount) none
  | .error e => BlockChain.mintIfFull H fuel bc sender receiver (some e)

/-- State after the validation-and-transfer phase of `push_transaction` but
before the minting phase: ledger buffer, sender, receiver and reported
error.  Used to state structural lemmas about `push_transaction`. -/
def pushMid (H : HashFun) (bc : BlockChain) (sender receiver : Account)
    (amount : F64) (sender_password : String) : PushResultV :=
  if amount ≤ 0 ∨ sender.balance.value < amount then
    (bc, sender, receiver, some .InvalidAmount)
  else
    ({ bc with transactions :=
        bc.transactions ++ [TransactionV2.new H sender receiver amount sender_password] },
      { sender with balance := ⟨sender.balance.val - amount⟩ },
      { receiver with balance := ⟨receiver.balance.val + amount⟩ },
      none)

/-- Fold of `push_transaction` over a list of submissions (each with its own
sender/receiver snapshot), collecting the per-call reported errors. -/
def runPushes (H : HashFun) (fuel : Nat) (bc : BlockChain) :
    List (Account × Account × F64 × String) →
      Except PushOutcome (BlockChain × List (Option ValidationErrorV2))
  | [] => .ok (bc, [])
  | s :: rest =>
      match BlockChain.push_transaction H fuel bc s.1 s.2.1 s.2.2.1 s.2.2.2 with
      | .error o => .error o
      | .ok r =>
          match runPushes H fuel r.1 rest with
          | .error o => .error o
          | .ok br => .ok (br.1, r.2.2.2 :: br.2)

/-- Caller-side state for sequences of public operations: the accounts the
caller owns and the ledger. -/
structure World where
  accounts : List Account
  ledger : BlockChain
  deriving DecidableEq

/-- One public checked operation: `Account::add_money`,
`Account::sub_money`, or `BlockChain::push_transaction` on two distinct
caller-owned accounts. -/
inductive Op where
  | addMoney (i : Nat) (amount : F64)
  | subMoney (i : Nat) (amount : F64)
  | push (i j : Nat) (amount : F64) (password : String)

/-- Step of one public operation on the world.  `none` models an operation
the caller cannot perform (bad index, aliased accounts — Rust's two `&mut`
arguments cannot alias) or a call that does not return normally. -/
def World.step (H : HashFun) (fuel : Nat) (w : World) : Op → Option World
  | .addMoney i amount =>
      (w.accounts[i]?).map fun a =>
        ⟨w.accounts.set i (a.add_money amount), w.ledger⟩
  | .subMoney i amount =>
      (w.accounts[i]?).bind fun a =>
        (a.sub_money amount).map fun a1 => ⟨w.accounts.set i a1, w.ledger⟩
  | .push i j amount password =>
      if i = j then none
      else
        (w.accounts[i]?).bind fun s =>
          (w.accounts[j]?).bind fun r =>
            match BlockChain.push_transaction H fuel w.ledger s r amount password with
            | .ok res => some ⟨(w.accounts.set i res.2.1).set j res.2.2.1, res.1⟩
            | .error _ => none

/-- Run of a sequence of public operations. -/
def World.run (H : HashFun) (fuel : Nat) (w : World) : List Op → Option World
  | [] => some w
  | op :: ops => (w.step H fuel op).bind fun w1 => w1.run H fuel ops

/-- Every account balance in the world is non-negative. -/
abbrev World.nonnegBalances (w : World) : Prop :=
  ∀ a ∈ w.accounts, 0 ≤ a.balance.value

/-- Adjacent chain linkage: each block's `prev_hash` equals the previous
block's `hash`. -/
abbrev linkedChain (chain : List Block) : Prop :=
  List.Chain' (fun b1 b2 => b2.prev_hash = b1.hash) chain

/-- Concrete executable stand-in for SHA-512 used by the witnesses:
injective on strings and always starting with the proof-of-work target. -/
def Hex : HashFun := fun s => 69 :: 69 :: (s.toList.map Char.toNat)

/-- All-zero 64-byte buffer. -/
def zeros64 : List Nat := List.replicate 64 0

/-- Witness account (fresh, balance 0). -/
def exAlice : Account := Account.new Hex (List.replicate 64 1) "Alice" "A" "apw"

/-- Witness account (fresh, balance 0). -/
def exBob : Account := Account.new Hex (List.replicate 64 2) "Bob" "B" "bpw"

/-- Witness account with a funded balance. -/
def exAliceRich : Account := exAlice.add_money 100

/-- Witness ledger with batch size 2 (genesis already mined under `Hex`). -/
def exLedger : BlockChain := (BlockChain.new Hex 1 2).getD ⟨0, [], [], 2⟩

/-- Chain well-formedness maintained by the ledger: the chain is non-empty,
adjacently linked, and starts with the genesis block (index 0, no
transactions). -/
def goodChain (bc : BlockChain) : Prop :=
  bc.chain ≠ [] ∧ linkedChain bc.chain ∧
    (bc.chain.map Block.index).head? = some 0 ∧
    (bc.chain.map Block.transactions).head? = some []

/-- Witness ledger with batch size 1. -/
def exLedger1 : BlockChain := (BlockChain.new Hex 1 1).getD ⟨0, [], [], 1⟩

/-- Result of one successful batch-size-1 submission (a block is minted). -/
def exRun7 : BlockChain × List (Option ValidationErrorV2) :=
  (runPushes Hex 1 exLedger1 [(exAliceRich, exBob, 5, "apw")]).toOption.getD
    (⟨0, [], [], 1⟩, [])

/-- Witness world: two accounts and the batch-size-2 ledger. -/
def exWorld0 : World := ⟨[exAliceRich, exBob], exLedger⟩

/-- Witness operation sequence: a deposit, a transfer, a withdrawal. -/
def exOps : List Op := [Op.addMoney 0 7, Op.push 0 1 5 "x", Op.subMoney 1 2]

/-- World reached by running the witness operations. -/
def exWorld1 : World := (World.run Hex 1 exWorld0 exOps).getD exWorld0

/-- Concrete mined block exhibiting the stored-nonce off-by-one. -/
def cxBlock : Block := (Block.new Hex 1 0 zeros64 []).getD ⟨0, [], [], 0, []⟩

/-- Concrete mined block used to instantiate the amended proof-of-work
round-trip. -/
def exBlock5 : Block := (Block.new Hex 1 3 zeros64 []).getD ⟨0, [], [], 0, []⟩

/-- Extended model of Rust `f64` for the panic analysis of the unchecked
paths: exact finite values plus the IEEE special values NaN and the two
infinities, with IEEE comparison and addition/subtraction semantics on
them.  (Rounding and overflow of finite results are not modelled; on the
operations below they could only turn a finite result into an infinity,
never mask a panic under the finiteness hypotheses used.) -/
inductive FE where
  | nan
  | inf
  | neginf
  | fin (v : Int)
  deriving DecidableEq

/-- IEEE `<=` on extended floats: false whenever either side is NaN. -/
def FE.le : FE → FE → Bool
  | .nan, _ => false
  | _, .nan => false
  | .neginf, _ => true
  | _, .neginf => false
  | _, .inf => true
  | .inf, _ => false
  | .fin a, .fin b => decide (a ≤ b)

/-- IEEE `<` on extended floats: false whenever either side is NaN. -/
def FE.lt : FE → FE → Bool
  | .nan, _ => false
  | _, .nan => false
  | .neginf, .neginf => false
  | .neginf, _ => true
  | _, .neginf => false
  | .inf, _ => false
  | _, .inf => true
  | .fin a, .fin b => decide (a < b)

/-- IEEE `== 0.0` on extended floats: false for NaN and the infinities. -/
def FE.beqZero : FE → Bool
  | .fin v => decide (v = 0)
  | _ => false

/-- IEEE addition on extended floats (finite part exact). -/
def FE.add : FE → FE → FE
  | .nan, _ => .nan
  | _, .nan => .nan
  | .inf, .neginf => .nan
  | .neginf, .inf => .nan
  | .inf, _ => .inf
  | _, .inf => .inf
  | .neginf, _ => .neginf
  | _, .neginf => .neginf
  | .fin a, .fin b => .fin (a + b)

/-- IEEE subtraction on extended floats (finite part exact); in particular
`inf - inf = NaN` and anything involving NaN is NaN. -/
def FE.sub : FE → FE → FE
  | .nan, _ => .nan
  | _, .nan => .nan
  | .inf, .inf => .nan
  | .neginf, .neginf => .nan
  | .inf, _ => .inf
  | _, .inf => .neginf
  | .neginf, _ => .neginf
  | _, .neginf => .inf
  | .fin a, .fin b => .fin (a - b)

/-- Finiteness test: false exactly on NaN and the infinities. -/
def FE.isFinite : FE → Bool
  | .fin _ => true
  | _ => false

/-- Rust `Display` rendering of an extended float. -/
def FE.display : FE → String
  | .nan => "NaN"
  | .inf => "inf"
  | .neginf => "-inf"
  | .fin v => toString v

/-- `PositiveF64` (positive_f64.rs) over the extended float model. -/
structure PositiveF64E where
  val : FE
  deriving DecidableEq

/-- `PositiveF64::new` over the extended model: the `number >= 0.0` test is
the IEEE comparison, so NaN fails it. -/
def PositiveF64E.new (number : FE) : Except InvalidNumber PositiveF64E :=
  if FE.le (FE.fin 0) number then .ok ⟨number⟩ else .error .NegativeValue

/-- `PositiveF64::value` over the extended model. -/
def PositiveF64E.value (p : PositiveF64E) : FE := p.val

/-- `PositiveF64::new_unchecked` over the extended model. -/
def PositiveF64E.new_unchecked (number : FE) : PositiveF64E := ⟨number⟩

/-- `impl AddAssign for PositiveF64` over the extended model: no check, no
unwrap, hence no panic even on special values. -/
def PositiveF64E.addAssign (p q : PositiveF64E) : PositiveF64E :=
  ⟨FE.add p.val q.val⟩

/-- `impl SubAssign for PositiveF64` over the extended model: the unwrap of
`PositiveF64::new(self.0 - other.0)` panics (`none`) whenever the IEEE
difference is not `>= 0.0` — in particular whenever it is NaN. -/
def PositiveF64E.subAssign (p q : PositiveF64E) : Option PositiveF64E :=
  match PositiveF64E.new (FE.sub p.val q.val) with
  | .ok _ => some ⟨FE.sub p.val q.val⟩
  | .error _ => none

/-- `Account` (account.rs) over the extended float model. -/
structure AccountE where
  first_name : String
  last_name : String
  balance : PositiveF64E
  keypair : List Nat
  hash_password : List Nat
  deriving DecidableEq

/-- `Account::new` over the extended model. -/
def AccountE.new (H : HashFun) (kp : List Nat)
    (first_name last_name password : String) : AccountE :=
  ⟨first_name, last_name, ⟨FE.fin 0⟩, kp, H password⟩

/-- `Account::add_money` over the extended model.  Note the guard admits
`+inf` (it is `>= 0.0`), so an infinite balance is reachable through this
checked method. -/
def AccountE.add_money (a : AccountE) (amount : FE) : AccountE :=
  if FE.beqZero amount then a
  else
    match PositiveF64E.new amount with
    | .ok q => { a with balance := a.balance.addAssign q }
    | .error _ => a

/-- `Account::sub_money` over the extended model. -/
def AccountE.sub_money (a : AccountE) (amount : FE) : Option AccountE :=
  if FE.beqZero amount then some a
  else
    match PositiveF64E.new amount with
    | .ok q =>
        match PositiveF64E.new (FE.sub a.balance.value q.value) with
        | .ok _ =>
            match a.balance.subAssign q with
            | some b => some { a with balance := b }
            | none => none
        | .error _ => some a
    | .error _ => some a

/-- `Account::add_money_unchecked` over the extended model. -/
def AccountE.add_money_unchecked (a : AccountE) (amount : FE) : AccountE :=
  { a with balance := a.balance.addAssign (PositiveF64E.new_unchecked amount) }

/-- `Account::sub_money_unchecked` over the extended model: panics (`none`)
through `SubAssign`'s unwrap when the IEEE difference is not `>= 0.0`. -/
def AccountE.sub_money_unchecked (a : AccountE) (amount : FE) : Option AccountE :=
  match a.balance.subAssign (PositiveF64E.new_unchecked amount) with
  | some b => some { a with balance := b }
  | none => none

/-- `impl Display for Account` over the extended model. -/
def AccountE.display (a : AccountE) : String :=
  "(" ++ a.first_name ++ " " ++ a.last_name ++ ": " ++ FE.display a.balance.val ++ ")"

/-- Modelled from the spec: the missing `Transaction` revision used by
`blockchain.rs`, over the extended float model. -/
structure TransactionV2E where
  sender : AccountE
  receiver : AccountE
  amount : FE
  hash : List Nat
  deriving DecidableEq

/-- Modelled from the spec: content-digest input of the missing revision,
over the extended model. -/
def TransactionV2E.digestInput (sender receiver : AccountE) (amount : FE) :
    String :=
  sender.display ++ receiver.display ++ FE.display amount

/-- Modelled from the spec: `Transaction::new` of the missing revision,
over the extended model. -/
def TransactionV2E.new (H : HashFun) (sender receiver : AccountE) (amount : FE)
    (_sender_password : String) : TransactionV2E :=
  ⟨sender, receiver, amount, H (TransactionV2E.digestInput sender receiver amount)⟩

/-- Accessor `transaction.hash()` over the extended model. -/
def TransactionV2E.hashValue (t : TransactionV2E) : List Nat := t.hash

/-- Modelled from the spec: `Transaction::validate` of the missing revision
over the extended model, with IEEE comparisons: a NaN amount is neither
`<= 0.0` nor greater than the balance, so the amount check passes on it. -/
def TransactionV2E.validate (t : TransactionV2E) (hash : List Nat) :
    Except ValidationErrorV2 Unit :=
  if hash ≠ t.hash then .error .Tempered
  else if FE.le t.amount (FE.fin 0) || FE.lt t.sender.balance.value t.amount then
    .error .InvalidAmount
  else .ok ()

/-- `Block` (block.rs) over the extended float model. -/
structure BlockE where
  index : Nat
  prev_hash : List Nat
  transactions : List TransactionV2E
  nonce : Nat
  hash : List Nat
  deriving DecidableEq

/-- Transactions-hashes accumulator of `Block::calculate_hash` over the
extended model. -/
def transactionsHashesE (txs : List TransactionV2E) : String :=
  txs.foldl (fun acc t => rustDebugString acc ++ rustDebugBytes t.hash) ""

/-- `Block::new` over the extended model (the mining loop `mineAux` is
shared: it only sees the digest string). -/
def BlockE.new (H : HashFun) (fuel : Nat) (index : Nat) (prev_hash : List Nat)
    (transactions : List TransactionV2E) : Option BlockE :=
  (mineAux H index prev_hash (transactionsHashesE transactions) 0
      (List.replicate 64 0) fuel).map
    fun nh => ⟨index, prev_hash, transactions, nh.1, nh.2⟩

/-- `impl Default for Block` over the extended model. -/
def BlockE.defaultBlock (H : HashFun) (fuel : Nat) : Option BlockE :=
  BlockE.new H fuel 0 (List.replicate 64 0) []

/-- `BlockChain` (blockchain.rs) over the extended float model. -/
structure BlockChainE where
  index : Nat
  chain : List BlockE
  transactions : List TransactionV2E
  transactions_per_block : Nat
  deriving DecidableEq

/-- `BlockChain::new` over the extended model. -/
def BlockChainE.new (H : HashFun) (fuel : Nat) (transactions_per_block : Nat) :
    Option BlockChainE :=
  (BlockE.defaultBlock H fuel).map fun g => ⟨0, [g], [], transactions_per_block⟩

/-- Normal result of `push_transaction` over the extended model. -/
abbrev PushResultVE :=
  BlockChainE × AccountE × AccountE × Option ValidationErrorV2

/-- Minting tail of `push_transaction` over the extended model. -/
def BlockChainE.mintIfFull (H : HashFun) (fuel : Nat) (bc : BlockChainE)
    (sender receiver : AccountE) (err : Option ValidationErrorV2) :
    Except PushOutcome PushResultVE :=
  if bc.transactions.length = bc.transactions_per_block then
    match bc.chain.getLast? with
    | none => .error .panicked
    | some lastBlock =>
        match BlockE.new H fuel (bc.index + 1) lastBlock.hash bc.transactions with
        | none => .error .mining
        | some nb =>
            .ok (⟨bc.index + 1, bc.chain ++ [nb], [], bc.transactions_per_block⟩,
              sender, receiver, err)
  else .ok (bc, sender, receiver, err)

/-- `BlockChain::push_transaction` (blockchain.rs) over the extended float
model: the same code path as `BlockChain.push_transaction`, but with IEEE
comparison and subtraction semantics, which makes the `SubAssign` panic
reachable on non-finite inputs. -/
def BlockChainE.push_transaction (H : HashFun) (fuel : Nat) (bc : BlockChainE)
    (sender receiver : AccountE) (amount : FE) (sender_password : String) :
    Except PushOutcome PushResultVE :=
  match (TransactionV2E.new H sender receiver amount sender_password).validate
      (TransactionV2E.new H sender receiver amount sender_password).hashValue with
  | .ok _ =>
      match sender.sub_money_unchecked amount with
      | none => .error .panicked
      | some sender1 =>
          BlockChainE.mintIfFull H fuel
            { bc with transactions := bc.transactions
                ++ [TransactionV2E.new H sender receiver amount sender_password] }
            sender1 (receiver.add_money_unchecked amount) none
  | .error e => BlockChainE.mintIfFull H fuel bc sender receiver (some e)

/-- Witness account over the extended model (fresh, balance 0). -/
def exAliceE : AccountE := AccountE.new Hex (List.replicate 64 1) "Alice" "A" "apw"

/-- Witness account over the extended model (fresh, balance 0). -/
def exBobE : AccountE := AccountE.new Hex (List.replicate 64 2) "Bob" "B" "bpw"

/-- Account whose balance is `+inf`, reached through the checked
`add_money` (the guard admits an infinite amount). -/
def exAliceInfE : AccountE := exAliceE.add_money FE.inf

/-- Witness ledger over the extended model, batch size 2. -/
def exLedgerE : BlockChainE := (BlockChainE.new Hex 1 2).getD ⟨0, [], [], 2⟩

/-- Inversion of a successful `PositiveF64::new`. -/
theorem PositiveF64.new_ok_inv {q : F64} {p : PositiveF64}
    (h : PositiveF64.new q = .ok p) : p = ⟨q⟩ ∧ 0 ≤ q := by
  unfold PositiveF64.new at h
  split at h
  · cases h; exact ⟨rfl, by assumption⟩
  · cases h

/-- Inversion of a failing `PositiveF64::new`. -/
theorem PositiveF64.new_err_inv {q : F64} {e : InvalidNumber}
    (h : PositiveF64.new q = .error e) : ¬ 0 ≤ q := by
  unfold PositiveF64.new at h
  split at h
  · cases h
  · cases h; assumption

/-- `SubAssign` succeeds exactly on a non-negative difference. -/
theorem PositiveF64.subAssign_some (p q : PositiveF64) (h : 0 ≤ p.val - q.val) :
    p.subAssign q = some ⟨p.val - q.val⟩ := by
  simp [PositiveF64.subAssign, PositiveF64.new, h]

/-- `Account::sub_money_unchecked` succeeds when the amount does not exceed
the balance. -/
theorem Account.sub_money_unchecked_some (a : Account) (amount : F64)
    (h : amount ≤ a.balance.val) :
    a.sub_money_unchecked amount
      = some { a with balance := ⟨a.balance.val - amount⟩ } := by
  have h0 : 0 ≤ a.balance.val - amount := by linarith
  simp [Account.sub_money_unchecked, PositiveF64.new_unchecked,
    PositiveF64.subAssign_some _ _ h0]

/-- `Account::add_money_unchecked` always adds the amount. -/
theorem Account.add_money_unchecked_eq (a : Account) (amount : F64) :
    a.add_money_unchecked amount
      = { a with balance := ⟨a.balance.val + amount⟩ } := rfl

/-- Normal form of `Account::add_money` as a decidable case split. -/
theorem Account.add_money_eq (a : Account) (amount : F64) :
    a.add_money amount =
      if amount = 0 then a
      else if 0 ≤ amount then { a with balance := ⟨a.balance.val + amount⟩ }
      else a := by
  unfold Account.add_money PositiveF64.new PositiveF64.addAssign
  by_cases hz : amount = 0
  · simp [hz]
  · by_cases hpos : 0 ≤ amount <;> simp [hz, hpos]

/-- Normal form of `Account::sub_money` as a decidable case split. -/
theorem Account.sub_money_eq (a : Account) (amount : F64) :
    a.sub_money amount =
      if amount = 0 then some a
      else if 0 ≤ amount then
        if 0 ≤ a.balance.val - amount then
          some { a with balance := ⟨a.balance.val - amount⟩ }
        else some a
      else some a := by
  unfold Account.sub_money PositiveF64.new PositiveF64.value PositiveF64.subAssign
  by_cases hz : amount = 0
  · simp [hz]
  · by_cases hpos : 0 ≤ amount
    · by_cases hdiff : 0 ≤ a.balance.val - amount
      · simp [hz, hpos, hdiff, PositiveF64.new]
      · simp [hz, hpos, hdiff, PositiveF64.new]
    · simp [hz, hpos]

/-- Case analysis of `Account::add_money`. -/
theorem Account.add_money_cases (a : Account) (amount : F64) :
    a.add_money amount = a ∨
      (0 ≤ amount ∧
        a.add_money amount = { a with balance := ⟨a.balance.val + amount⟩ }) := by
  rw [Account.add_money_eq]
  split_ifs with h1 h2
  · exact .inl rfl
  · exact .inr ⟨h2, rfl⟩
  · exact .inl rfl

/-- Case analysis of a normally returning `Account::sub_money`. -/
theorem Account.sub_money_cases (a : Account) (amount : F64) (a1 : Account)
    (h : a.sub_money amount = some a1) :
    a1 = a ∨
      (0 ≤ a.balance.val - amount ∧
        a1 = { a with balance := ⟨a.balance.val - amount⟩ }) := by
  rw [Account.sub_money_eq] at h
  split_ifs at h with h1 h2 h3
  · cases h; exact .inl rfl
  · cases h; exact .inr ⟨h3, rfl⟩
  · cases h; exact .inl rfl
  · cases h; exact .inl rfl

/-- `Account::sub_money` never panics. -/
theorem Account.sub_money_isSome (a : Account) (amount : F64) :
    (a.sub_money amount).isSome = true := by
  rw [Account.sub_money_eq]
  split_ifs <;> rfl

/-- `Account::sub_money` with an amount exceeding the balance leaves the
account unchanged. -/
theorem Account.sub_money_exceeding (a : Account) (amount : F64)
    (h : a.balance.value < amount) : a.sub_money amount = some a := by
  have h' : a.balance.val < amount := h
  rw [Account.sub_money_eq]
  split_ifs with h1 h2 h3
  · rfl
  · exfalso; linarith
  · rfl
  · rfl

/-- Validation of a freshly built transaction against its own stored hash:
the tamper check always passes, so the outcome depends only on the amount
check. -/
theorem TransactionV2.validate_self (H : HashFun) (s r : Account)
    (amount : F64) (pwd : String) :
    (TransactionV2.new H s r amount pwd).validate
        (TransactionV2.new H s r amount pwd).hashValue
      = if amount ≤ 0 ∨ s.balance.value < amount then .error .InvalidAmount
        else .ok () := by
  simp only [TransactionV2.new, TransactionV2.validate, TransactionV2.hashValue,
    ne_eq, not_true_eq_false, if_false, ite_not]

/-- `mintIfFull` is the identity result when the buffer is not full. -/
theorem BlockChain.mintIfFull_not_full (H : HashFun) (fuel : Nat)
    (bc : BlockChain) (s r : Account) (err : Option ValidationErrorV2)
    (h : bc.transactions.length ≠ bc.transactions_per_block) :
    BlockChain.mintIfFull H fuel bc s r err = .ok (bc, s, r, err) := by
  simp [BlockChain.mintIfFull, h]

/-- Full case analysis of a normally returning `mintIfFull`: the accounts
and the reported error pass through, and the ledger either is untouched
(buffer not full) or gains exactly one block mined over the buffer and the
last block's hash. -/
theorem BlockChain.mintIfFull_ok_cases (H : HashFun) (fuel : Nat)
    (bc : BlockChain) (s r : Account) (err : Option ValidationErrorV2)
    (bc1 : BlockChain) (s1 r1 : Account) (err1 : Option ValidationErrorV2)
    (h : BlockChain.mintIfFull H fuel bc s r err = .ok (bc1, s1, r1, err1)) :
    s1 = s ∧ r1 = r ∧ err1 = err ∧
      ((bc.transactions.length ≠ bc.transactions_per_block ∧ bc1 = bc) ∨
        (bc.transactions.length = bc.transactions_per_block ∧
          ∃ lastB nb, bc.chain.getLast? = some lastB ∧
            Block.new H fuel (bc.index + 1) lastB.hash bc.transactions = some nb ∧
            bc1 = ⟨bc.index + 1, bc.chain ++ [nb], [], bc.transactions_per_block⟩)) := by
  unfold BlockChain.mintIfFull at h
  split at h
  · rename_i hfull
    cases hg : bc.chain.getLast? with
    | none => rw [hg] at h; cases h
    | some lastB =>
        rw [hg] at h
        dsimp only at h
        cases hn : Block.new H fuel (bc.index + 1) lastB.hash bc.transactions with
        | none => rw [hn] at h; cases h
        | some nb =>
            rw [hn] at h
            simp only [Except.ok.injEq, Prod.mk.injEq] at h
            obtain ⟨hbc, hs, hr, herr⟩ := h
            exact ⟨hs.symm, hr.symm, herr.symm,
              .inr ⟨hfull, lastB, nb, rfl, hn, hbc.symm⟩⟩
  · rename_i hnfull
    simp only [Except.ok.injEq, Prod.mk.injEq] at h
    obtain ⟨hbc, hs, hr, herr⟩ := h
    exact ⟨hs.symm, hr.symm, herr.symm, .inl ⟨hnfull, hbc.symm⟩⟩

/-- `push_transaction` factors as the validation-and-transfer phase
(`pushMid`) followed by `mintIfFull`. -/
theorem BlockChain.push_eq_mint (H : HashFun) (fuel : Nat) (bc : BlockChain)
    (s r : Account) (amount : F64) (pwd : String) :
    BlockChain.push_transaction H fuel bc s r amount pwd
      = BlockChain.mintIfFull H fuel (pushMid H bc s r amount pwd).1
          (pushMid H bc s r amount pwd).2.1 (pushMid H bc s r amount pwd).2.2.1
          (pushMid H bc s r amount pwd).2.2.2 := by
  unfold BlockChain.push_transaction pushMid
  rw [TransactionV2.validate_self]
  by_cases h : amount ≤ 0 ∨ s.balance.value < amount
  · simp [h]
  · have h2 := h
    push_neg at h2
    have hle : amount ≤ s.balance.val := h2.2
    simp [h, Account.sub_money_unchecked_some s amount hle,
      Account.add_money_unchecked_eq]

/-- Account effects of a normally returning `push_transaction`: either the
validation failed and both accounts pass through unchanged, or the amount
was strictly positive and covered, the sender was debited and the receiver
credited by exactly that amount. -/
theorem BlockChain.push_accounts (H : HashFun) (fuel : Nat) (bc : BlockChain)
    (s r : Account) (amount : F64) (pwd : String) (bc1 : BlockChain)
    (s1 r1 : Account) (err : Option ValidationErrorV2)
    (hp : BlockChain.push_transaction H fuel bc s r amount pwd
      = .ok (bc1, s1, r1, err)) :
    (s1 = s ∧ r1 = r) ∨
      (0 < amount ∧ amount ≤ s.balance.val ∧
        s1 = { s with balance := ⟨s.balance.val - amount⟩ } ∧
        r1 = { r with balance := ⟨r.balance.val + amount⟩ }) := by
  rw [BlockChain.push_eq_mint] at hp
  obtain ⟨hs, hr, _, _⟩ := BlockChain.mintIfFull_ok_cases _ _ _ _ _ _ _ _ _ _ hp
  by_cases hcond : amount ≤ 0 ∨ s.balance.value < amount
  · simp only [pushMid, if_pos hcond] at hs hr
    exact .inl ⟨hs, hr⟩
  · have h2 := hcond
    push_neg at h2
    simp only [pushMid, if_neg hcond] at hs hr
    exact .inr ⟨h2.1, h2.2, hs, hr⟩

/-- Ledger effects of a normally returning `push_transaction`: the buffer
either gains the new transaction (success, no error reported) or stays as
it was (`InvalidAmount` reported); then either no block is minted (buffer
below the batch size) or exactly one block is minted over the buffer and
the buffer is cleared. -/
theorem BlockChain.push_ledger_cases (H : HashFun) (fuel : Nat)
    (bc : BlockChain) (s r : Account) (amount : F64) (pwd : String)
    (bc1 : BlockChain) (s1 r1 : Account) (err : Option ValidationErrorV2)
    (hp : BlockChain.push_transaction H fuel bc s r amount pwd
      = .ok (bc1, s1, r1, err)) :
    ∃ buf2 : List TransactionV2,
      ((err = none ∧
          buf2 = bc.transactions ++ [TransactionV2.new H s r amount pwd]) ∨
        (err = some ValidationErrorV2.InvalidAmount ∧ buf2 = bc.transactions)) ∧
      ((buf2.length ≠ bc.transactions_per_block ∧
          bc1 = ⟨bc.index, bc.chain, buf2, bc.transactions_per_block⟩) ∨
        (buf2.length = bc.transactions_per_block ∧
          ∃ lastB nb, bc.chain.getLast? = some lastB ∧
            Block.new H fuel (bc.index + 1) lastB.hash buf2 = some nb ∧
            bc1 = ⟨bc.index + 1, bc.chain ++ [nb], [], bc.transactions_per_block⟩)) := by
  rw [BlockChain.push_eq_mint] at hp
  obtain ⟨_, _, herr, hcase⟩ := BlockChain.mintIfFull_ok_cases _ _ _ _ _ _ _ _ _ _ hp
  by_cases hcond : amount ≤ 0 ∨ s.balance.value < amount
  · refine ⟨bc.transactions, ?_, ?_⟩
    · simp only [pushMid, if_pos hcond] at herr
      exact .inr ⟨herr, rfl⟩
    · simpa only [pushMid, if_pos hcond] using hcase
  · refine ⟨bc.transactions ++ [TransactionV2.new H s r amount pwd], ?_, ?_⟩
    · simp only [pushMid, if_neg hcond] at herr
      exact .inl ⟨herr, rfl⟩
    · simpa only [pushMid, if_neg hcond] using hcase

/-- Invariant of the mining loop: a returned pair has the target prefix,
and unless the loop exited immediately, the hash is the digest of the
attempt at the predecessor of the returned nonce. -/
theorem mineAux_some (H : HashFun) (index : Nat) (prev_hash : List Nat)
    (txsStr : String) (fuel nonce : Nat) (hash : List Nat) (n : Nat)
    (outHash : List Nat)
    (hm : mineAux H index prev_hash txsStr nonce hash fuel = some (n, outHash)) :
    outHash.take 2 = powTarget ∧
      ((n = nonce ∧ outHash = hash) ∨
        (nonce < n ∧
          outHash = H (blockDigestInput index prev_hash txsStr (n - 1)))) := by
  induction fuel generalizing nonce hash with
  | zero =>
      unfold mineAux at hm
      split at hm
      · rename_i ht
        simp only [Option.some.injEq, Prod.mk.injEq] at hm
        obtain ⟨hn, hh⟩ := hm
        subst hn; subst hh
        exact ⟨ht, .inl ⟨rfl, rfl⟩⟩
      · cases hm
  | succ fuel ih =>
      unfold mineAux at hm
      split at hm
      · rename_i ht
        simp only [Option.some.injEq, Prod.mk.injEq] at hm
        obtain ⟨hn, hh⟩ := hm
        subst hn; subst hh
        exact ⟨ht, .inl ⟨rfl, rfl⟩⟩
      · rename_i ht
        obtain ⟨htake, hcase⟩ :=
          ih (nonce + 1) (H (blockDigestInput index prev_hash txsStr nonce)) hm
        refine ⟨htake, .inr ?_⟩
        rcases hcase with ⟨hn, hh⟩ | ⟨hlt, hh⟩
        · subst hn
          constructor
          · omega
          · simpa using hh
        · exact ⟨by omega, hh⟩

/-- Characterisation of a block produced by `Block::new`: the inputs are
stored verbatim, the hash has the target prefix, the stored nonce is at
least 1, and the hash is the digest of the attempt at `nonce - 1` (the
loop increments the nonce after storing the successful digest). -/
theorem Block.new_some (H : HashFun) (fuel index : Nat) (prev_hash : List Nat)
    (transactions : List TransactionV2) (b : Block)
    (hb : Block.new H fuel index prev_hash transactions = some b) :
    b.index = index ∧ b.prev_hash = prev_hash ∧ b.transactions = transactions ∧
      b.hash.take 2 = powTarget ∧ 1 ≤ b.nonce ∧
      b.hash = H (blockDigestInput index prev_hash
        (transactionsHashes transactions) (b.nonce - 1)) := by
  unfold Block.new at hb
  cases hm : mineAux H index prev_hash (transactionsHashes transactions) 0
      (List.replicate 64 0) fuel with
  | none => rw [hm] at hb; cases hb
  | some nh =>
      rw [hm] at hb
      simp only [Option.map_some', Option.some.injEq] at hb
      subst hb
      obtain ⟨ht, hcase⟩ := mineAux_some H index prev_hash
        (transactionsHashes transactions) fuel 0 (List.replicate 64 0) nh.1 nh.2 hm
      rcases hcase with ⟨hn, hh⟩ | ⟨hpos, hh⟩
      · rw [hh] at ht
        exact absurd ht (by decide)
      · exact ⟨rfl, rfl, rfl, ht, hpos, hh⟩

/-- Head of an appended list, when the left part is non-empty. -/
theorem head?_append_left {α : Type} (l l2 : List α) {x : α}
    (h : l.head? = some x) : (l ++ l2).head? = some x := by
  cases l with
  | nil => cases h
  | cons a t => simpa using h

/-- A non-empty list has a last element. -/
theorem getLast?_some_of_ne_nil {α : Type} (l : List α) (h : l ≠ []) :
    ∃ x, l.getLast? = some x := by
  induction l with
  | nil => exact absurd rfl h
  | cons a t ih =>
      cases t with
      | nil => exact ⟨a, rfl⟩
      | cons b t2 =>
          obtain ⟨x, hx⟩ := ih (by simp)
          exact ⟨x, by rw [List.getLast?_cons_cons]; exact hx⟩

/-- Fields of a freshly created `BlockChain`. -/
theorem BlockChain.new_fields (H : HashFun) (fuel k : Nat) (bc : BlockChain)
    (h : BlockChain.new H fuel k = some bc) :
    bc.index = 0 ∧ bc.transactions = [] ∧ bc.transactions_per_block = k ∧
      ∃ g, Block.new H fuel 0 (List.replicate 64 0) [] = some g ∧
        bc.chain = [g] := by
  unfold BlockChain.new Block.defaultBlock at h
  cases hg : Block.new H fuel 0 (List.replicate 64 0) [] with
  | none => rw [hg] at h; cases h
  | some g =>
      rw [hg] at h
      simp only [Option.map_some', Option.some.injEq] at h
      subst h
      exact ⟨rfl, rfl, rfl, g, rfl, rfl⟩

/-- One `push_transaction` preserves the chain invariant. -/
theorem BlockChain.push_goodChain (H : HashFun) (fuel : Nat) (bc : BlockChain)
    (s r : Account) (amount : F64) (pwd : String) (bc1 : BlockChain)
    (s1 r1 : Account) (err : Option ValidationErrorV2)
    (hp : BlockChain.push_transaction H fuel bc s r amount pwd
      = .ok (bc1, s1, r1, err))
    (hg : goodChain bc) : goodChain bc1 := by
  obtain ⟨hne, hlink, hhead1, hhead2⟩ := hg
  obtain ⟨buf2, _, hmint⟩ :=
    BlockChain.push_ledger_cases _ _ _ _ _ _ _ _ _ _ _ hp
  rcases hmint with ⟨_, hbc1⟩ | ⟨_, lastB, nb, hlast, hnew, hbc1⟩
  · subst hbc1
    exact ⟨hne, hlink, hhead1, hhead2⟩
  · subst hbc1
    obtain ⟨_, hprev, _, _, _, _⟩ := Block.new_some _ _ _ _ _ _ hnew
    refine ⟨by simp, ?_, ?_, ?_⟩
    · dsimp only
      refine List.chain'_append.mpr ⟨hlink, List.chain'_singleton _, ?_⟩
      intro x hx y hy
      simp only [List.head?_cons, Option.mem_def, Option.some.injEq] at hy
      subst hy
      rw [hlast] at hx
      simp only [Option.mem_def, Option.some.injEq] at hx
      subst hx
      exact hprev
    · dsimp only
      rw [List.map_append]
      exact head?_append_left _ _ hhead1
    · dsimp only
      rw [List.map_append]
      exact head?_append_left _ _ hhead2

/-- A run of submissions preserves the chain invariant. -/
theorem runPushes_goodChain (H : HashFun) (fuel : Nat) :
    ∀ (subs : List (Account × Account × F64 × String)) (bc bcN : BlockChain)
      (errs : List (Option ValidationErrorV2)),
      runPushes H fuel bc subs = .ok (bcN, errs) → goodChain bc →
        goodChain bcN := by
  intro subs
  induction subs with
  | nil =>
      intro bc bcN errs h hg
      unfold runPushes at h
      simp only [Except.ok.injEq, Prod.mk.injEq] at h
      rw [← h.1]
      exact hg
  | cons x rest ih =>
      intro bc bcN errs h hg
      unfold runPushes at h
      cases hp : BlockChain.push_transaction H fuel bc x.1 x.2.1 x.2.2.1 x.2.2.2 with
      | error o => rw [hp] at h; cases h
      | ok res =>
          rw [hp] at h
          dsimp only at h
          cases hr : runPushes H fuel res.1 rest with
          | error o => rw [hr] at h; cases h
          | ok br =>
              rw [hr] at h
              simp only [Except.ok.injEq, Prod.mk.injEq] at h
              have hg1 : goodChain res.1 :=
                BlockChain.push_goodChain H fuel bc x.1 x.2.1 x.2.2.1 x.2.2.2
                  res.1 res.2.1 res.2.2.1 res.2.2.2 hp hg
              rw [← h.1]
              exact ih res.1 br.1 br.2 hr hg1

/-- A run whose successful submissions keep the buffer strictly below the
batch size mints nothing: the index and chain are unchanged and the buffer
grows by one per submission. -/
theorem runPushes_small (H : HashFun) (fuel : Nat) :
    ∀ (subs : List (Account × Account × F64 × String)) (bc bcN : BlockChain)
      (errs : List (Option ValidationErrorV2)),
      runPushes H fuel bc subs = .ok (bcN, errs) →
      (∀ e ∈ errs, e = none) →
      bc.transactions.length + subs.length < bc.transactions_per_block →
      bcN.index = bc.index ∧ bcN.chain = bc.chain ∧
        bcN.transactions.length = bc.transactions.length + subs.length ∧
        bcN.transactions_per_block = bc.transactions_per_block := by
  intro subs
  induction subs with
  | nil =>
      intro bc bcN errs h _ _
      unfold runPushes at h
      simp only [Except.ok.injEq, Prod.mk.injEq] at h
      rw [← h.1]
      simp
  | cons x rest ih =>
      intro bc bcN errs h hok hlen
      unfold runPushes at h
      cases hp : BlockChain.push_transaction H fuel bc x.1 x.2.1 x.2.2.1 x.2.2.2 with
      | error o => rw [hp] at h; cases h
      | ok res =>
          rw [hp] at h
          dsimp only at h
          cases hr : runPushes H fuel res.1 rest with
          | error o => rw [hr] at h; cases h
          | ok br =>
              rw [hr] at h
              simp only [Except.ok.injEq, Prod.mk.injEq] at h
              obtain ⟨hbcN, herrs⟩ := h
              have herrnone : res.2.2.2 = none := by
                apply hok
                rw [← herrs]
                exact List.mem_cons_self _ _
              obtain ⟨buf2, hbuf, hmint⟩ :=
                BlockChain.push_ledger_cases _ _ _ _ _ _ _ res.1 res.2.1
                  res.2.2.1 res.2.2.2 (by rw [hp])
              rcases hbuf with ⟨_, hbuf2⟩ | ⟨hsome, _⟩
              · subst hbuf2
                rcases hmint with ⟨_, hres⟩ | ⟨hfull, _⟩
                · have hres1i : res.1.index = bc.index := by rw [hres]
                  have hres1c : res.1.chain = bc.chain := by rw [hres]
                  have hres1t : res.1.transactions.length
                      = bc.transactions.length + 1 := by rw [hres]; simp
                  have hres1p : res.1.transactions_per_block
                      = bc.transactions_per_block := by rw [hres]
                  simp only [List.length_cons] at hlen
                  have ihres := ih res.1 br.1 br.2 hr
                    (by
                      intro e he
                      apply hok
                      rw [← herrs]
                      exact List.mem_cons_of_mem _ he)
                    (by rw [hres1t, hres1p]; omega)
                  rw [← hbcN]
                  refine ⟨?_, ?_, ?_, ?_⟩
                  · rw [ihres.1, hres1i]
                  · rw [ihres.2.1, hres1c]
                  · rw [ihres.2.2.1, hres1t]
                    simp only [List.length_cons]
                    omega
                  · rw [ihres.2.2.2, hres1p]
                · exfalso
                  simp only [List.length_append, List.length_cons,
                    List.length_nil] at hfull
                  simp only [List.length_cons] at hlen
                  omega
              · rw [herrnone] at hsome
                cases hsome

/-- A run of successful submissions that exactly fills the batch mints one
block at its last submission: the index rises by one and the buffer is
cleared. -/
theorem runPushes_fill (H : HashFun) (fuel : Nat) :
    ∀ (subs : List (Account × Account × F64 × String)) (bc bcN : BlockChain)
      (errs : List (Option ValidationErrorV2)),
      runPushes H fuel bc subs = .ok (bcN, errs) →
      (∀ e ∈ errs, e = none) →
      0 < subs.length →
      bc.transactions.length + subs.length = bc.transactions_per_block →
      bcN.index = bc.index + 1 ∧ bcN.transactions = [] := by
  intro subs
  induction subs with
  | nil =>
      intro bc bcN errs _ _ hpos _
      simp at hpos
  | cons x rest ih =>
      intro bc bcN errs h hok _ hlen
      unfold runPushes at h
      cases hp : BlockChain.push_transaction H fuel bc x.1 x.2.1 x.2.2.1 x.2.2.2 with
      | error o => rw [hp] at h; cases h
      | ok res =>
          rw [hp] at h
          dsimp only at h
          cases hr : runPushes H fuel res.1 rest with
          | error o => rw [hr] at h; cases h
          | ok br =>
              rw [hr] at h
              simp only [Except.ok.injEq, Prod.mk.injEq] at h
              obtain ⟨hbcN, herrs⟩ := h
              have herrnone : res.2.2.2 = none := by
                apply hok
                rw [← herrs]
                exact List.mem_cons_self _ _
              obtain ⟨buf2, hbuf, hmint⟩ :=
                BlockChain.push_ledger_cases _ _ _ _ _ _ _ res.1 res.2.1
                  res.2.2.1 res.2.2.2 (by rw [hp])
              rcases hbuf with ⟨_, hbuf2⟩ | ⟨hsome, _⟩
              · subst hbuf2
                simp only [List.length_cons] at hlen
                have hbuflen : (bc.transactions ++
                    [TransactionV2.new H x.1 x.2.1 x.2.2.1 x.2.2.2]).length
                      = bc.transactions.length + 1 := by simp
                rcases rest with _ | ⟨y, rest2⟩
                · -- the filling submission: the block is minted here
                  unfold runPushes at hr
                  simp only [Except.ok.injEq, Prod.mk.injEq] at hr
                  rcases hmint with ⟨hne2, _⟩ | ⟨_, _, _, _, _, hres⟩
                  · exfalso
                    rw [hbuflen] at hne2
                    simp only [List.length_nil] at hlen
                    omega
                  · rw [← hbcN, ← hr]
                    dsimp only
                    rw [hres]
                    exact ⟨rfl, rfl⟩
                · -- the batch is not yet full: no mint at this submission
                  rcases hmint with ⟨_, hres⟩ | ⟨hfull, _⟩
                  · have hres1i : res.1.index = bc.index := by rw [hres]
                    have hres1t : res.1.transactions.length
                        = bc.transactions.length + 1 := by rw [hres]; simp
                    have hres1p : res.1.transactions_per_block
                        = bc.transactions_per_block := by rw [hres]
                    have ihres := ih res.1 br.1 br.2 hr
                      (by
                        intro e he
                        apply hok
                        rw [← herrs]
                        exact List.mem_cons_of_mem _ he)
                      (by simp)
                      (by
                        rw [hres1t, hres1p]
                        simp only [List.length_cons] at hlen ⊢
                        omega)
                    rw [← hbcN]
                    exact ⟨by rw [ihres.1, hres1i], ihres.2⟩
                  · exfalso
                    rw [hbuflen] at hfull
                    simp only [List.length_cons] at hlen
                    omega
              · rw [herrnone] at hsome
                cases hsome

/-- Membership from a successful indexed lookup. -/
theorem mem_of_lookup {α : Type} (l : List α) (i : Nat) (a : α)
    (h : l[i]? = some a) : a ∈ l := by
  obtain ⟨hi, hv⟩ := List.getElem?_eq_some.mp h
  exact hv ▸ List.getElem_mem hi

/-- One public operation preserves non-negativity of all balances. -/
theorem World.step_nonneg (H : HashFun) (fuel : Nat) (w : World) (op : Op)
    (w1 : World) (h : World.step H fuel w op = some w1)
    (hw : ∀ a ∈ w.accounts, 0 ≤ a.balance.val) :
    ∀ a ∈ w1.accounts, 0 ≤ a.balance.val := by
  cases op with
  | addMoney i amount =>
      simp only [World.step, Option.map_eq_some'] at h
      obtain ⟨a, ha, hw1⟩ := h
      intro b hb
      rw [← hw1] at hb
      dsimp only at hb
      rcases List.mem_or_eq_of_mem_set hb with hb | hb
      · exact hw b hb
      · subst hb
        rcases Account.add_money_cases a amount with hcase | ⟨hpos, hcase⟩
        · rw [hcase]
          exact hw a (mem_of_lookup _ _ _ ha)
        · rw [hcase]
          have := hw a (mem_of_lookup _ _ _ ha)
          dsimp only
          linarith
  | subMoney i amount =>
      simp only [World.step, Option.bind_eq_some, Option.map_eq_some'] at h
      obtain ⟨a, ha, a1, ha1, hw1⟩ := h
      intro b hb
      rw [← hw1] at hb
      dsimp only at hb
      rcases List.mem_or_eq_of_mem_set hb with hb | hb
      · exact hw b hb
      · rw [hb]
        rcases Account.sub_money_cases a amount a1 ha1 with hcase | ⟨hdiff, hcase⟩
        · rw [hcase]
          exact hw a (mem_of_lookup _ _ _ ha)
        · rw [hcase]
          exact hdiff
  | push i j amount password =>
      simp only [World.step] at h
      split at h
      · cases h
      · simp only [Option.bind_eq_some] at h
        obtain ⟨s, hs, r, hrr, h⟩ := h
        cases hp : BlockChain.push_transaction H fuel w.ledger s r amount password with
        | error o => rw [hp] at h; cases h
        | ok res =>
            rw [hp] at h
            dsimp only at h
            simp only [Option.some.injEq] at h
            intro b hb
            rw [← h] at hb
            dsimp only at hb
            have hsmem : s ∈ w.accounts := mem_of_lookup _ _ _ hs
            have hrmem : r ∈ w.accounts := mem_of_lookup _ _ _ hrr
            have hacc := BlockChain.push_accounts H fuel w.ledger s r amount
              password res.1 res.2.1 res.2.2.1 res.2.2.2 (by rw [hp])
            rcases List.mem_or_eq_of_mem_set hb with hb | hb
            · rcases List.mem_or_eq_of_mem_set hb with hb | hb
              · exact hw b hb
              · subst hb
                rcases hacc with ⟨hs1, _⟩ | ⟨hpos, hle, hs1, _⟩
                · rw [hs1]; exact hw s hsmem
                · rw [hs1]
                  have := hw s hsmem
                  dsimp only
                  linarith
            · subst hb
              rcases hacc with ⟨_, hr1⟩ | ⟨hpos, hle, _, hr1⟩
              · rw [hr1]; exact hw r hrmem
              · rw [hr1]
                have := hw r hrmem
                dsimp only
                linarith

/-- A run of public operations preserves non-negativity of all balances. -/
theorem World.run_nonneg (H : HashFun) (fuel : Nat) :
    ∀ (ops : List Op) (w w1 : World),
      World.run H fuel w ops = some w1 →
      (∀ a ∈ w.accounts, 0 ≤ a.balance.val) →
      ∀ a ∈ w1.accounts, 0 ≤ a.balance.val := by
  intro ops
  induction ops with
  | nil =>
      intro w w1 h hw
      unfold World.run at h
      simp only [Option.some.injEq] at h
      rw [← h]
      exact hw
  | cons op rest ih =>
      intro w w1 h hw
      unfold World.run at h
      simp only [Option.bind_eq_some] at h
      obtain ⟨w2, hstep, hrun⟩ := h
      exact ih w2 w1 hrun (World.step_nonneg H fuel w op w2 hstep hw)

/-- The validation-and-transfer phase never touches the chain. -/
theorem pushMid_chain (H : HashFun) (bc : BlockChain) (s r : Account)
    (amount : F64) (pwd : String) :
    (pushMid H bc s r amount pwd).1.chain = bc.chain := by
  unfold pushMid
  by_cases hcond : amount ≤ 0 ∨ s.balance.value < amount <;> simp [hcond]

/-- `mintIfFull` never panics on a non-empty chain. -/
theorem BlockChain.mintIfFull_no_panic (H : HashFun) (fuel : Nat)
    (bc : BlockChain) (s r : Account) (err : Option ValidationErrorV2)
    (hne : bc.chain ≠ []) :
    BlockChain.mintIfFull H fuel bc s r err ≠ .error PushOutcome.panicked := by
  intro hcontra
  unfold BlockChain.mintIfFull at hcontra
  split at hcontra
  · cases hg : bc.chain.getLast? with
    | none =>
        obtain ⟨x, hx⟩ := getLast?_some_of_ne_nil bc.chain hne
        rw [hx] at hg
        cases hg
    | some lastB =>
        rw [hg] at hcontra
        dsimp only at hcontra
        cases hn : Block.new H fuel (bc.index + 1) lastB.hash bc.transactions with
        | none => rw [hn] at hcontra; simp at hcontra
        | some nb => rw [hn] at hcontra; simp at hcontra
  · simp at hcontra

/-- C1: through the public checked interface (`Account::add_money`,
`Account::sub_money`, `BlockChain::push_transaction`), every sequence of
operations keeps all account balances — the observable `PositiveF64`
quantities — non-negative; and `sub_money` with an amount exceeding the
balance leaves the balance unchanged. -/
theorem C1_nonnegativity :
    (∀ (H : HashFun) (fuel : Nat) (w : World) (ops : List Op) (w1 : World),
      World.nonnegBalances w → World.run H fuel w ops = some w1 →
        World.nonnegBalances w1) ∧
    (∀ (a : Account) (amount : F64), a.balance.value < amount →
      a.sub_money amount = some a) := by
  constructor
  · intro H fuel w ops w1 hw hrun
    exact World.run_nonneg H fuel ops w w1 hrun hw
  · exact Account.sub_money_exceeding

/-- C2: a `push_transaction` whose amount exceeds the sender's current
balance fails with `InvalidAmount` and changes nothing: the sender, the
receiver, the pending buffer, the chain and the height are all returned
exactly as they were (the buffer-length hypothesis is the ledger invariant
that holds between calls). -/
theorem C2_insufficient_funds (H : HashFun) (fuel : Nat) (bc : BlockChain)
    (s r : Account) (amount : F64) (pwd : String)
    (hlen : bc.transactions.length < bc.transactions_per_block)
    (hamt : s.balance.value < amount) :
    BlockChain.push_transaction H fuel bc s r amount pwd
      = .ok (bc, s, r, some ValidationErrorV2.InvalidAmount) := by
  rw [BlockChain.push_eq_mint]
  have hcond : amount ≤ 0 ∨ s.balance.value < amount := .inr hamt
  simp only [pushMid, if_pos hcond]
  exact BlockChain.mintIfFull_not_full _ _ _ _ _ _ (by omega)

/-- C3: whenever `push_transaction` reports a validation failure, the call
leaves the ledger (buffer, chain, height) and both accounts exactly as they
were — no partial debit or credit (the buffer-length hypothesis is the
ledger invariant that holds between calls). -/
theorem C3_failed_validation_no_effect (H : HashFun) (fuel : Nat)
    (bc : BlockChain) (s r : Account) (amount : F64) (pwd : String)
    (bc1 : BlockChain) (s1 r1 : Account) (e : ValidationErrorV2)
    (hlen : bc.transactions.length < bc.transactions_per_block)
    (hp : BlockChain.push_transaction H fuel bc s r amount pwd
      = .ok (bc1, s1, r1, some e)) :
    bc1 = bc ∧ s1 = s ∧ r1 = r := by
  rw [BlockChain.push_eq_mint] at hp
  obtain ⟨hs, hr, herr, hcase⟩ :=
    BlockChain.mintIfFull_ok_cases _ _ _ _ _ _ _ _ _ _ hp
  by_cases hcond : amount ≤ 0 ∨ s.balance.value < amount
  · simp only [pushMid, if_pos hcond] at hs hr hcase
    rcases hcase with ⟨_, hbc⟩ | ⟨hfull, _⟩
    · exact ⟨hbc, hs, hr⟩
    · exact absurd hfull (by omega)
  · simp only [pushMid, if_neg hcond] at herr
    cases herr

/-- Over the exact finite model: `sub_money` always returns normally and
`push_transaction` never reaches the panicking unwrap inside `SubAssign`
(nor the `chain.last().unwrap()`, given the ledger's never-empty chain).
On the extended model with the IEEE special values this fails — see the
C4 theorems below. -/
theorem push_no_panic_exactModel :
    (∀ (a : Account) (amount : F64), (a.sub_money amount).isSome = true) ∧
    (∀ (H : HashFun) (fuel : Nat) (bc : BlockChain) (s r : Account)
      (amount : F64) (pwd : String), bc.chain ≠ [] →
        BlockChain.push_transaction H fuel bc s r amount pwd
          ≠ .error PushOutcome.panicked) := by
  constructor
  · exact Account.sub_money_isSome
  · intro H fuel bc s r amount pwd hne
    rw [BlockChain.push_eq_mint]
    exact BlockChain.mintIfFull_no_panic _ _ _ _ _ _
      (by rw [pushMid_chain]; exact hne)

/-- C5 counterexample: a concrete block produced by `Block::new` whose
stored hash is NOT reproduced by hashing the digest built from the block's
stored fields (index, previous hash, transaction digests, nonce): the
mining loop increments the nonce after storing the successful digest. -/
theorem C5_cx :
    Block.new Hex 1 0 zeros64 [] = some cxBlock ∧
      cxBlock.hash ≠ Hex (blockDigestInput cxBlock.index cxBlock.prev_hash
        (transactionsHashes cxBlock.transactions) cxBlock.nonce) := by
  constructor
  · decide
  · decide

/-- C5 (amended): for every block produced by `Block::new`, the first two
bytes of its stored hash equal the fixed target `[69, 69]`, the stored
nonce is at least 1, and recomputing the digest from the stored fields with
`nonce - 1` — the nonce actually used in the final attempt — reproduces
exactly the stored hash. -/
theorem C5_pow_roundtrip (H : HashFun) (fuel index : Nat)
    (prev_hash : List Nat) (transactions : List TransactionV2) (b : Block)
    (hb : Block.new H fuel index prev_hash transactions = some b) :
    b.hash.take 2 = powTarget ∧ 1 ≤ b.nonce ∧
      b.hash = H (blockDigestInput b.index b.prev_hash
        (transactionsHashes b.transactions) (b.nonce - 1)) := by
  obtain ⟨h1, h2, h3, h4, h5, h6⟩ :=
    Block.new_some H fuel index prev_hash transactions b hb
  rw [h1, h2, h3]
  exact ⟨h4, h5, h6⟩

/-- C6: after any run of submissions on a freshly created ledger, every
block's `prev_hash` equals the previous block's `hash` (adjacent linkage
over the whole chain), and the chain's first block is the genesis block:
index 0 and an empty transaction list. -/
theorem C6_chain_linkage (H : HashFun) (fuel k : Nat) (bc0 : BlockChain)
    (subs : List (Account × Account × F64 × String)) (bcN : BlockChain)
    (errs : List (Option ValidationErrorV2))
    (hnew : BlockChain.new H fuel k = some bc0)
    (hrun : runPushes H fuel bc0 subs = .ok (bcN, errs)) :
    linkedChain bcN.chain ∧ (bcN.chain.map Block.index).head? = some 0 ∧
      (bcN.chain.map Block.transactions).head? = some [] := by
  obtain ⟨_, _, _, g, hg, hchain⟩ := BlockChain.new_fields H fuel k bc0 hnew
  obtain ⟨hidx, _, htx, _, _, _⟩ := Block.new_some _ _ _ _ _ _ hg
  have hg0 : goodChain bc0 := by
    refine ⟨by rw [hchain]; simp, ?_, ?_, ?_⟩
    · rw [hchain]
      exact List.chain'_singleton _
    · rw [hchain]
      simp [hidx]
    · rw [hchain]
      simp [htx]
  have hgN := runPushes_goodChain H fuel subs bc0 bcN errs hrun hg0
  exact ⟨hgN.2.1, hgN.2.2.1, hgN.2.2.2⟩

/-- C7: on a ledger freshly created with positive batch size `k`, a run of
`k` valid (all-accepted) submissions raises the height by exactly one and
leaves the pending buffer empty, while a run of `k - 1` valid submissions
leaves the height unchanged and the buffer holding `k - 1` transactions. -/
theorem C7_batching (H : HashFun) (fuel k : Nat) (bc : BlockChain)
    (subs : List (Account × Account × F64 × String)) (bcN : BlockChain)
    (errs : List (Option ValidationErrorV2)) (hk : 0 < k)
    (hnew : BlockChain.new H fuel k = some bc)
    (hrun : runPushes H fuel bc subs = .ok (bcN, errs))
    (hok : ∀ e ∈ errs, e = none) :
    (subs.length = k → bcN.index = bc.index + 1 ∧ bcN.transactions = []) ∧
    (subs.length = k - 1 →
      bcN.index = bc.index ∧ bcN.transactions.length = k - 1) := by
  obtain ⟨hidx, htx, hper, _⟩ := BlockChain.new_fields H fuel k bc hnew
  constructor
  · intro hlen
    exact runPushes_fill H fuel subs bc bcN errs hrun hok (by omega)
      (by rw [htx, hper, hlen]; simp)
  · intro hlen
    have hsmall := runPushes_small H fuel subs bc bcN errs hrun hok
      (by rw [htx, hlen, hper]; simp only [List.length_nil, Nat.zero_add]; omega)
    refine ⟨hsmall.1, ?_⟩
    rw [hsmall.2.2.1, htx, hlen]
    simp

/-- C8: for every transaction of the string-based `Transaction` under
`src/`, `validate` of the digest computed from the original fields
succeeds, and `validate` of any other 64-byte value fails with the tamper
error (spelled `Tempered` in the code). -/
theorem C8_digest_integrity (H : HashFun) (sender receiver : String)
    (amount : Nat) :
    (Transaction.new H sender receiver amount).validate
        (H (Transaction.digestInput sender receiver amount)) = .ok () ∧
      ∀ other : List Nat,
        other ≠ (Transaction.new H sender receiver amount).hash →
          (Transaction.new H sender receiver amount).validate other
            = .error ValidationError.Tempered := by
  constructor
  · simp [Transaction.new, Transaction.validate]
  · intro other hother
    unfold Transaction.validate
    rw [if_pos hother]

/-- C9: `PositiveF64::new(value)` succeeds with a wrapper holding exactly
that value if and only if the value is non-negative, and otherwise fails
with `NegativeValue`. -/
theorem C9_positive_f64_new (q : F64) :
    (PositiveF64.new q = .ok ⟨q⟩ ↔ 0 ≤ q) ∧
      (¬ 0 ≤ q → PositiveF64.new q = .error InvalidNumber.NegativeValue) := by
  constructor
  · constructor
    · intro h
      by_contra hneg
      unfold PositiveF64.new at h
      rw [if_neg hneg] at h
      cases h
    · intro h
      unfold PositiveF64.new
      rw [if_pos h]
  · intro h
    unfold PositiveF64.new
    rw [if_neg h]

/-- C10 counterexample: a concrete submission on which the internal
`validate` call rejects (reporting `InvalidAmount`), refuting that the
validate call returns `Ok` for every submission. -/
theorem C10_cx :
    BlockChain.push_transaction Hex 1 exLedger exAlice exBob 5 "apw"
      = .ok (exLedger, exAlice, exBob, some ValidationErrorV2.InvalidAmount) := by
  decide

/-- C10 (amended): `push_transaction` validates the transaction against its
own freshly stored digest, so the tamper comparison always passes and —
password and signature checks being unenforced — the reported outcome is
exactly determined by the amount check: `InvalidAmount` when the amount is
zero, negative, or exceeds the sender's balance, and no error otherwise. -/
theorem C10_validate_characterised (H : HashFun) (fuel : Nat)
    (bc : BlockChain) (s r : Account) (amount : F64) (pwd : String)
    (bc1 : BlockChain) (s1 r1 : Account) (err : Option ValidationErrorV2)
    (hp : BlockChain.push_transaction H fuel bc s r amount pwd
      = .ok (bc1, s1, r1, err)) :
    err = if amount ≤ 0 ∨ s.balance.value < amount
      then some ValidationErrorV2.InvalidAmount else none := by
  rw [BlockChain.push_eq_mint] at hp
  obtain ⟨_, _, herr, _⟩ :=
    BlockChain.mintIfFull_ok_cases _ _ _ _ _ _ _ _ _ _ hp
  by_cases hcond : amount ≤ 0 ∨ s.balance.value < amount
  · simp only [pushMid, if_pos hcond] at herr
    rw [herr, if_pos hcond]
  · simp only [pushMid, if_neg hcond] at herr
    rw [herr, if_neg hcond]

/-- Witness for C1 at a concrete world and operation sequence. -/
theorem C1_nonnegativity_witness :
    World.nonnegBalances exWorld1 ∧ exBob.sub_money 3 = some exBob :=
  ⟨C1_nonnegativity.1 Hex 1 exWorld0 exOps exWorld1 (by decide) (by decide),
    C1_nonnegativity.2 exBob 3 (by decide)⟩

/-- Witness for C2 at a concrete over-drawing submission. -/
theorem C2_insufficient_funds_witness :
    BlockChain.push_transaction Hex 1 exLedger exAlice exBob 200 "apw"
      = .ok (exLedger, exAlice, exBob, some ValidationErrorV2.InvalidAmount) :=
  C2_insufficient_funds Hex 1 exLedger exAlice exBob 200 "apw"
    (by decide) (by decide)

/-- Witness for C3 at a concrete rejected submission. -/
theorem C3_failed_validation_no_effect_witness :
    exLedger = exLedger ∧ exAlice = exAlice ∧ exBob = exBob :=
  C3_failed_validation_no_effect Hex 1 exLedger exAlice exBob 200 "apw"
    exLedger exAlice exBob ValidationErrorV2.InvalidAmount
    (by decide) (by decide)

/-- Witness for the amended C5 at a concrete mined block. -/
theorem C5_pow_roundtrip_witness :
    exBlock5.hash.take 2 = powTarget ∧ 1 ≤ exBlock5.nonce ∧
      exBlock5.hash = Hex (blockDigestInput exBlock5.index exBlock5.prev_hash
        (transactionsHashes exBlock5.transactions) (exBlock5.nonce - 1)) :=
  C5_pow_roundtrip Hex 1 3 zeros64 [] exBlock5 (by decide)

/-- Witness for C6 at a concrete run that mints one block. -/
theorem C6_chain_linkage_witness :
    linkedChain exRun7.1.chain ∧
      (exRun7.1.chain.map Block.index).head? = some 0 ∧
      (exRun7.1.chain.map Block.transactions).head? = some [] :=
  C6_chain_linkage Hex 1 1 exLedger1 [(exAliceRich, exBob, 5, "apw")]
    exRun7.1 exRun7.2 (by decide) (by decide)

/-- Witness for C7 at a concrete batch-size-1 run. -/
theorem C7_batching_witness :
    (([(exAliceRich, exBob, (5 : F64), "apw")].length = 1 →
        exRun7.1.index = exLedger1.index + 1 ∧ exRun7.1.transactions = []) ∧
      ([(exAliceRich, exBob, (5 : F64), "apw")].length = 1 - 1 →
        exRun7.1.index = exLedger1.index ∧
          exRun7.1.transactions.length = 1 - 1)) :=
  C7_batching Hex 1 1 exLedger1 [(exAliceRich, exBob, 5, "apw")]
    exRun7.1 exRun7.2 (by decide) (by decide) (by decide) (by decide)

/-- Witness for C8 at a concrete transaction and a concrete other digest. -/
theorem C8_digest_integrity_witness :
    (Transaction.new Hex "alice" "bob" 7).validate
        (Hex (Transaction.digestInput "alice" "bob" 7)) = .ok () ∧
      (Transaction.new Hex "alice" "bob" 7).validate zeros64
        = .error ValidationError.Tempered :=
  ⟨(C8_digest_integrity Hex "alice" "bob" 7).1,
    (C8_digest_integrity Hex "alice" "bob" 7).2 zeros64 (by decide)⟩

/-- Witness for C9 at concrete positive and negative inputs. -/
theorem C9_positive_f64_new_witness :
    ((PositiveF64.new 3 = .ok ⟨3⟩ ↔ (0 : F64) ≤ 3) ∧
        (¬ (0 : F64) ≤ 3 →
          PositiveF64.new 3 = .error InvalidNumber.NegativeValue)) ∧
      ((PositiveF64.new (-2) = .ok ⟨-2⟩ ↔ (0 : F64) ≤ -2) ∧
        (¬ (0 : F64) ≤ -2 →
          PositiveF64.new (-2) = .error InvalidNumber.NegativeValue)) :=
  ⟨C9_positive_f64_new 3, C9_positive_f64_new (-2)⟩

/-- Witness for the amended C10 at a concrete rejected submission. -/
theorem C10_validate_characterised_witness :
    some ValidationErrorV2.InvalidAmount
      = if (5 : F64) ≤ 0 ∨ exAlice.balance.value < 5
        then some ValidationErrorV2.InvalidAmount else none :=
  C10_validate_characterised Hex 1 exLedger exAlice exBob 5 "apw"
    exLedger exAlice exBob (some ValidationErrorV2.InvalidAmount) (by decide)

/-- `mintIfFull` over the extended model never panics on a non-empty
chain. -/
theorem BlockChainE.mintIfFull_no_panicE (H : HashFun) (fuel : Nat)
    (bc : BlockChainE) (s r : AccountE) (err : Option ValidationErrorV2)
    (hne : bc.chain ≠ []) :
    BlockChainE.mintIfFull H fuel bc s r err ≠ .error PushOutcome.panicked := by
  intro hcontra
  unfold BlockChainE.mintIfFull at hcontra
  split at hcontra
  · cases hg : bc.chain.getLast? with
    | none =>
        obtain ⟨x, hx⟩ := getLast?_some_of_ne_nil bc.chain hne
        rw [hx] at hg
        cases hg
    | some lastB =>
        rw [hg] at hcontra
        dsimp only at hcontra
        cases hn : BlockE.new H fuel (bc.index + 1) lastB.hash bc.transactions with
        | none => rw [hn] at hcontra; simp at hcontra
        | some nb => rw [hn] at hcontra; simp at hcontra
  · simp at hcontra

/-- Checked `sub_money` over the extended model returns normally on every
input, special values included: its guard re-checks exactly the difference
whose unwrap `SubAssign` performs. -/
theorem AccountE.sub_money_isSomeE (a : AccountE) (amount : FE) :
    (a.sub_money amount).isSome = true := by
  unfold AccountE.sub_money PositiveF64E.new PositiveF64E.value
    PositiveF64E.subAssign
  by_cases hz : FE.beqZero amount = true
  · simp [hz]
  · by_cases h1 : FE.le (FE.fin 0) amount = true
    · by_cases h2 : FE.le (FE.fin 0) (FE.sub a.balance.val amount) = true
      · simp [hz, h1, h2, PositiveF64E.new]
      · simp [hz, h1, h2, PositiveF64E.new]
    · simp [hz, h1]

/-- Validation of a fresh transaction against its own stored hash, over the
extended model: the tamper check passes and the outcome is exactly the IEEE
amount check. -/
theorem TransactionV2E.validate_selfE (H : HashFun) (s r : AccountE)
    (amount : FE) (pwd : String) :
    (TransactionV2E.new H s r amount pwd).validate
        (TransactionV2E.new H s r amount pwd).hashValue
      = if FE.le amount (FE.fin 0) || FE.lt s.balance.value amount then
          .error .InvalidAmount
        else .ok () := by
  simp only [TransactionV2E.new, TransactionV2E.validate,
    TransactionV2E.hashValue, ne_eq, not_true_eq_false, if_false, ite_not]

/-- C4 counterexample: `push_transaction` panics through `SubAssign`'s
unwrap on a NaN amount, and likewise on an infinite amount drawn against an
infinite balance — itself reached through the checked `add_money`, whose
guard admits `+inf`.  The IEEE comparisons of the amount check all come out
false on these inputs, so validation passes and the unchecked debit
computes a NaN difference whose unwrap panics. -/
theorem C4_cx :
    BlockChainE.push_transaction Hex 1 exLedgerE exAliceE exBobE FE.nan "apw"
        = .error PushOutcome.panicked ∧
      exAliceInfE.balance.val = FE.inf ∧
      BlockChainE.push_transaction Hex 1 exLedgerE exAliceInfE exBobE FE.inf "apw"
        = .error PushOutcome.panicked := by
  refine ⟨by decide, by decide, by decide⟩

/-- C4 (amended): over the extended float model — NaN and infinities
included — the checked `sub_money` returns normally on every input, and
`push_transaction` never panics whenever the amount and the sender's
balance are finite; its only non-normal outcome is a proof-of-work search
still running, so every reported validation error is a recoverable,
caller-visible outcome on such inputs.  The finiteness restriction is what
the counterexample forces. -/
theorem C4_no_panic_finite :
    (∀ (a : AccountE) (amount : FE), (a.sub_money amount).isSome = true) ∧
    (∀ (H : HashFun) (fuel : Nat) (bc : BlockChainE) (s r : AccountE)
      (amount : FE) (pwd : String), bc.chain ≠ [] →
        amount.isFinite = true → s.balance.val.isFinite = true →
        BlockChainE.push_transaction H fuel bc s r amount pwd
          ≠ .error PushOutcome.panicked) := by
  constructor
  · exact AccountE.sub_money_isSomeE
  · intro H fuel bc s r amount pwd hne hfa hfb
    cases amount with
    | nan => simp [FE.isFinite] at hfa
    | inf => simp [FE.isFinite] at hfa
    | neginf => simp [FE.isFinite] at hfa
    | fin av =>
        cases hbv : s.balance.val with
        | nan => rw [hbv] at hfb; simp [FE.isFinite] at hfb
        | inf => rw [hbv] at hfb; simp [FE.isFinite] at hfb
        | neginf => rw [hbv] at hfb; simp [FE.isFinite] at hfb
        | fin bv =>
            intro hcontra
            unfold BlockChainE.push_transaction at hcontra
            rw [TransactionV2E.validate_selfE] at hcontra
            by_cases hcond :
                (FE.le (FE.fin av) (FE.fin 0)
                  || FE.lt s.balance.value (FE.fin av)) = true
            · rw [if_pos hcond] at hcontra
              dsimp only at hcontra
              exact BlockChainE.mintIfFull_no_panicE H fuel bc s r _ hne hcontra
            · have hle : av ≤ bv := by
                simp only [Bool.or_eq_true, not_or] at hcond
                have h2 := hcond.2
                simp only [PositiveF64E.value, hbv, FE.lt] at h2
                have h3 : ¬ bv < av := by simpa using h2
                omega
              rw [if_neg hcond] at hcontra
              dsimp only at hcontra
              have hsub : (s.sub_money_unchecked (FE.fin av)).isSome = true := by
                unfold AccountE.sub_money_unchecked PositiveF64E.subAssign
                  PositiveF64E.new PositiveF64E.new_unchecked
                have h0 : (0 : Int) ≤ bv - av := by omega
                simp [hbv, FE.sub, FE.le, h0]
              obtain ⟨s1, hs1⟩ := Option.isSome_iff_exists.mp hsub
              rw [hs1] at hcontra
              dsimp only at hcontra
              refine BlockChainE.mintIfFull_no_panicE H fuel _ _ _ _ ?_ hcontra
              simpa using hne

/-- Witness for the amended C4 at a concrete finite submission. -/
theorem C4_no_panic_finite_witness :
    (exBobE.sub_money (FE.fin 0)).isSome = true ∧
      BlockChainE.push_transaction Hex 1 exLedgerE exAliceE exBobE
          (FE.fin 42) "z" ≠ .error PushOutcome.panicked :=
  ⟨C4_no_panic_finite.1 exBobE (FE.fin 0),
    C4_no_panic_finite.2 Hex 1 exLedgerE exAliceE exBobE (FE.fin 42) "z"
      (by decide) (by decide) (by decide)⟩
